import Mathlib

/-!
# Verification of the btern balanced-ternary library

Shallow embedding of `trit.py` (and the duplicated `Trit` in `btern.py`):
a single balanced-ternary digit (`Trit`) and sequences of trits
(`List Trit`, operations in the `Trits` namespace), together with proofs
of the specified properties.

A `Trits` object is modelled by its `trits` list (most significant digit
first); the derived attributes `string` and `integer` are modelled as
functions on that list.
-/

/-- A ternary digit: negative (-), zero (0), or positive (+).
The source interns three singleton `Trit` objects keyed by glyph. -/
inductive Trit : Type
  | neg
  | zero
  | pos
deriving DecidableEq, Repr, Fintype

/-- Source `INTEGERS` / `Trit.__int__`: the signed unit value of a trit. -/
def Trit.toInt : Trit → ℤ
  | .neg => -1
  | .zero => 0
  | .pos => 1

/-- Source `Trit.__str__`: the canonical glyph of a trit. -/
def Trit.glyph : Trit → String
  | .neg => "-"
  | .zero => "0"
  | .pos => "+"

/-- Source `Trit.__neg__`: the zero trit negates itself, positive and negative
negate each other. -/
def Trit.negate : Trit → Trit
  | .neg => .pos
  | .zero => .zero
  | .pos => .neg

/-- Source `Trit.add`: add two trits, returning a (result, carry) pair. -/
def Trit.add (a b : Trit) : Trit × Trit :=
  if a = .zero then (b, .zero)
  else if b = .zero then (a, .zero)
  else if a = b then (a.negate, a)
  else (.zero, .zero)

/-- The errors the library raises (both are `ValueError`s in the source;
the spec names them `InvalidTritSymbol` and `InvalidLength`). -/
inductive BternError : Type
  | invalidTritSymbol (value : String)
  | invalidLength (length : ℤ)
deriving DecidableEq, Repr

/-- The `INPUTS` table: every accepted spelling paired with its trit. -/
def INPUTS : List (String × Trit) :=
  [("-", .neg), ("-1", .neg), ("✗", .neg),
   ("0", .zero), ("", .zero), ("=", .zero),
   ("N", .zero), ("n", .zero), ("Z", .zero), ("z", .zero),
   ("+", .pos), ("1", .pos), ("✓", .pos)]

/-- Lookup of a (already trimmed) text in the `INPUTS` table. -/
def tableLookup (text : String) : Option Trit :=
  (INPUTS.find? (fun p => p.1 == text)).map Prod.snd

/-- Python's `str.strip()`: remove leading and trailing whitespace. -/
def strip (s : String) : String :=
  String.mk (((s.data.dropWhile Char.isWhitespace).reverse.dropWhile
    Char.isWhitespace).reverse)

/-- Source `Trit.make` on text input: strip surrounding whitespace, look the text up
in `INPUTS`, and fail with the original (unstripped) value otherwise. -/
def Trit.make (value : String) : Except BternError Trit :=
  match tableLookup (strip value) with
  | some t => .ok t
  | none => .error (.invalidTritSymbol value)

/-- Linear search for the least `k ≥ start` with `m ≤ 3 ^ k`, with
explicit fuel (the fuel is only there to make the recursion structural). -/
def findOrderFrom (m : ℕ) : ℕ → ℕ → ℕ
  | start, 0 => start
  | start, fuel + 1 => if m ≤ 3 ^ start then start else findOrderFrom m (start + 1) fuel

/-- The number of trits required to represent `integer`: the least `k`
with `3 ^ k ≥ 2·|integer|`, which is the exact value of
`⌈log₃(2·|integer|)⌉` described by the docstring of the source's
`int_order` and by the spec ("the smallest k with 3^k ≥ 2·|n|").
This is deliberately the exact count, not the source's actual
computation: the source evaluates
`int(math.ceil(math.log(2 * abs(integer), 3)))` in double-precision
floating point, which agrees with the exact count for moderate inputs
but returns one *less* whenever `2·|integer|` is just above a power of
three and the rounded logarithm lands on the integer below (first
failure at `2·|n| = 3^31 + 1`, i.e. `n = 308836698141974`, where the
double computation yields 31 although 32 trits are needed).  That
divergence mis-sizes integer-constructed sequences and is recorded as a
code bug against the round-trip and minimality claims (see the
float-order bug theorems below); everything proved about the greedy
digit loop below uses this exact count. -/
def int_order (n : ℤ) : ℕ :=
  findOrderFrom (2 * n.natAbs) 0 (2 * n.natAbs)

/-- One iteration of the digit loop in `Trits.__init__`: the trit placed at
position `power` when the remaining integer is `v`. -/
def buildDigit (v : ℤ) (power : ℕ) : Trit :=
  if v = 0 ∨ int_order v ≤ power then .zero
  else if v < 0 then .neg
  else .pos

/-- The digit loop of `Trits.__init__` for a nonzero integer: place digits
from position `power` down to position 0, subtracting each digit's
positional value from the running integer. -/
def buildTrits : ℤ → ℕ → List Trit
  | v, 0 => [buildDigit v 0]
  | v, p + 1 => buildDigit v (p + 1) :: buildTrits (v - (buildDigit v (p + 1)).toInt * 3 ^ (p + 1)) p

namespace Trits

/-- Source `Trits.__init__` from an integer: 0 becomes the single zero trit,
a nonzero `n` is decomposed greedily from position `int_order n - 1`. -/
def ofInt (n : ℤ) : List Trit :=
  if n = 0 then [Trit.zero] else buildTrits n (int_order n - 1)

/-- The length-forcing step of `Trits.__init__` (nonnegative length):
left-pad with zero trits when too short, else keep `self.trits[-length:]`
when too long.  Note that in Python `trits[-0:]` is the whole list, so
forcing a nonempty sequence to length 0 keeps every trit. -/
def forceLength (ts : List Trit) (n : ℕ) : List Trit :=
  if ts.length < n then List.replicate (n - ts.length) Trit.zero ++ ts
  else if n < ts.length then
    if n = 0 then ts else ts.drop (ts.length - n)
  else ts

/-- Source `Trits.__init__`'s handling of an explicit `length` argument: a negative
length raises, otherwise the list is forced to that length. -/
def withLength (ts : List Trit) (length : ℤ) : Except BternError (List Trit) :=
  if length < 0 then .error (.invalidLength length)
  else .ok (forceLength ts length.toNat)

/-- The three kinds of `trits` argument `Trits.__init__` accepts:
an integer, an iterable of trits, or `None`. -/
inductive Arg : Type
  | int (n : ℤ)
  | seq (ts : List Trit)
  | none

/-- Source `Trits.__init__` without a `length` argument, by kind of argument:
an integer is decomposed, an iterable is parsed element-wise (the identity
when the elements are already trits), and `None` leaves the empty list. -/
def init : Arg → List Trit
  | .int n => ofInt n
  | .seq ts => ts
  | .none => []

/-- The derived `integer` attribute: the represented integer
`Σᵢ int(dᵢ) · 3^(n-1-i)`, most significant digit first. -/
def integer : List Trit → ℤ
  | [] => 0
  | t :: rest => t.toInt * 3 ^ rest.length + integer rest

/-- The derived `string` attribute: the concatenated glyphs. -/
def string (ts : List Trit) : String :=
  String.join (ts.map Trit.glyph)

/-- Source `Trits.match_length`: pad the shorter operand on the left with zero
trits (via the length-forcing construction) so both have equal length. -/
def match_length (a b : List Trit) : List Trit × List Trit :=
  if a.length = b.length then (a, b)
  else if a.length < b.length then (forceLength a b.length, b)
  else (a, forceLength b a.length)

/-- The position-wise comparison loop of `Trits.cmp` over the zipped,
length-matched operands: -1 or 1 at the first differing position. -/
def cmpAux : List Trit → List Trit → ℤ
  | x :: xs, y :: ys =>
      if x.toInt < y.toInt then -1
      else if y.toInt < x.toInt then 1
      else cmpAux xs ys
  | _, _ => 0

/-- Source `Trits.cmp`: length-match, then compare position-wise from the most
significant position. -/
def cmp (a b : List Trit) : ℤ :=
  cmpAux (match_length a b).1 (match_length a b).2

/-- Source `Trits.__neg__`: negate every trit. -/
def negAll (ts : List Trit) : List Trit :=
  ts.map Trit.negate

/-- The scan loop of `Trits.__abs__` over the remaining digits `ts` of the
original sequence `orig`: the first negative digit returns `-orig`, the
first positive digit returns `orig`, and all-zero returns `orig`. -/
def absAux (orig : List Trit) : List Trit → List Trit
  | [] => orig
  | t :: rest =>
      if t = Trit.neg then negAll orig
      else if t = Trit.pos then orig
      else absAux orig rest

/-- Source `Trits.__abs__`: numeric absolute value, decided by the whole
sequence's sign. -/
def abs (ts : List Trit) : List Trit :=
  absAux ts ts

/-- The most significant nonzero digit of a sequence, if any. -/
def firstNonzero : List Trit → Option Trit
  | [] => Option.none
  | t :: rest => if t = Trit.zero then firstNonzero rest else some t

end Trits

/-! ## Properties of `int_order` -/

theorem findOrderFrom_le_pow (m : ℕ) (fuel : ℕ) : ∀ start : ℕ,
    m ≤ 3 ^ (start + fuel) → m ≤ 3 ^ findOrderFrom m start fuel := by
  induction fuel with
  | zero => intro start h; simpa [findOrderFrom] using h
  | succ f ih =>
      intro start h
      rw [findOrderFrom]
      split
      · assumption
      · exact ih (start + 1) (by rw [show start + 1 + f = start + (f + 1) from by omega]; exact h)

theorem findOrderFrom_min (m : ℕ) (fuel : ℕ) : ∀ start j : ℕ,
    start ≤ j → j < findOrderFrom m start fuel → 3 ^ j < m := by
  induction fuel with
  | zero =>
      intro start j h1 h2
      rw [findOrderFrom] at h2
      omega
  | succ f ih =>
      intro start j h1 h2
      rw [findOrderFrom] at h2
      by_cases hc : m ≤ 3 ^ start
      · rw [if_pos hc] at h2; omega
      · rw [if_neg hc] at h2
        rcases Nat.eq_or_lt_of_le h1 with h | h
        · subst h; omega
        · exact ih (start + 1) j h h2

/-- The value `int_order n` is the least `k` with `3 ^ k ≥ 2·|n|`: characterisation
as a Galois connection. -/
theorem int_order_le_iff (n : ℤ) (p : ℕ) :
    int_order n ≤ p ↔ 2 * n.natAbs ≤ 3 ^ p := by
  constructor
  · intro h
    have h1 : 2 * n.natAbs ≤ 3 ^ int_order n := by
      apply findOrderFrom_le_pow
      simpa using le_of_lt (Nat.lt_pow_self (by norm_num) (2 * n.natAbs))
    exact le_trans h1 (Nat.pow_le_pow_right (by norm_num) h)
  · intro h
    by_contra hc
    push_neg at hc
    have := findOrderFrom_min (2 * n.natAbs) (2 * n.natAbs) 0 p (Nat.zero_le p) hc
    omega

theorem int_order_pos (n : ℤ) (hn : n ≠ 0) : 1 ≤ int_order n := by
  by_contra h
  push_neg at h
  have h0 : int_order n ≤ 0 := by omega
  have := (int_order_le_iff n 0).mp h0
  have h1 : (3:ℕ) ^ 0 = 1 := rfl
  omega

/-! ## Correctness of the greedy digit decomposition -/

theorem buildTrits_length (p : ℕ) : ∀ v : ℤ, (buildTrits v p).length = p + 1 := by
  induction p with
  | zero => intro v; rfl
  | succ p ih => intro v; simp [buildTrits, ih]

theorem buildTrits_head (v : ℤ) (p : ℕ) :
    (buildTrits v p).head? = some (buildDigit v p) := by
  cases p <;> rfl

theorem buildTrits_integer (p : ℕ) : ∀ v : ℤ, 2 * v.natAbs ≤ 3 ^ (p + 1) →
    Trits.integer (buildTrits v p) = v := by
  induction p with
  | zero =>
      intro v hv
      have h1 : (3:ℕ) ^ (0 + 1) = 3 := rfl
      have h2 : v = -1 ∨ v = 0 ∨ v = 1 := by omega
      rcases h2 with h | h | h <;> subst h <;> decide
  | succ p ih =>
      intro v hv
      rw [buildTrits]
      have hcast : ((3 ^ (p + 1) : ℕ) : ℤ) = (3:ℤ) ^ (p + 1) := by push_cast; ring
      have hpow : (3:ℕ) ^ (p + 1 + 1) = 3 * 3 ^ (p + 1) := by ring
      rw [Trits.integer, buildTrits_length]
      by_cases h0 : v = 0 ∨ int_order v ≤ p + 1
      · have hd : buildDigit v (p + 1) = Trit.zero := by
          rw [buildDigit, if_pos h0]
        have hsmall : 2 * v.natAbs ≤ 3 ^ (p + 1) := by
          rcases h0 with h | h
          · subst h; simp
          · exact (int_order_le_iff v (p + 1)).mp h
        rw [hd]
        rw [ih _ (by simpa [Trit.toInt] using hsmall)]
        simp [Trit.toInt]
      · push_neg at h0
        obtain ⟨hv0, hord⟩ := h0
        have hbig : 3 ^ (p + 1) < 2 * v.natAbs := by
          by_contra hc
          push_neg at hc
          exact absurd ((int_order_le_iff v (p + 1)).mpr hc) (by omega)
        by_cases hneg : v < 0
        · have hd : buildDigit v (p + 1) = Trit.neg := by
            rw [buildDigit, if_neg (by push_neg; exact ⟨hv0, by omega⟩), if_pos hneg]
          rw [hd]
          have harg : 2 * (v - Trit.neg.toInt * 3 ^ (p + 1)).natAbs ≤ 3 ^ (p + 1) := by
            simp only [Trit.toInt]
            omega
          rw [ih _ harg]
          simp only [Trit.toInt]
          ring
        · have hd : buildDigit v (p + 1) = Trit.pos := by
            rw [buildDigit, if_neg (by push_neg; exact ⟨hv0, by omega⟩), if_neg hneg]
          rw [hd]
          have harg : 2 * (v - Trit.pos.toInt * 3 ^ (p + 1)).natAbs ≤ 3 ^ (p + 1) := by
            simp only [Trit.toInt]
            omega
          rw [ih _ harg]
          simp only [Trit.toInt]
          ring

/-- Correctness of the greedy loop under the exact digit count: for every
integer `n`, decomposing with the exact `int_order` decodes back to `n`.
This is the behavior the spec and the source's docstrings intend; the
shipped code computes the digit count in floating point and deviates from
it at large boundary inputs (see the round-trip float-order bug theorem),
so this theorem isolates the defect to the digit count alone. -/
theorem ofInt_roundtrip_exact_order (n : ℤ) :
    Trits.integer (Trits.ofInt n) = n := by
  by_cases hn : n = 0
  · subst hn; rfl
  · rw [Trits.ofInt, if_neg hn]
    have h1 : 1 ≤ int_order n := int_order_pos n hn
    have h2 : 2 * n.natAbs ≤ 3 ^ int_order n := (int_order_le_iff n _).mp le_rfl
    exact buildTrits_integer (int_order n - 1) n
      (by rw [show int_order n - 1 + 1 = int_order n from by omega]; exact h2)

theorem ofInt_length (n : ℤ) (hn : n ≠ 0) :
    (Trits.ofInt n).length = int_order n := by
  rw [Trits.ofInt, if_neg hn, buildTrits_length]
  have := int_order_pos n hn
  omega

/-- Minimality under the exact digit count: `Trits.ofInt 0` is the single
zero trit rendered `"0"`; for nonzero `n` the length is the least `k` with
`3 ^ k ≥ 2·|n|` and the leading trit is never zero.  As with the
round-trip, this is the intended behavior; the shipped floating-point
digit count deviates from the exact one at large boundary inputs (see the
minimality float-order bug theorem). -/
theorem ofInt_minimal_exact_order :
    (Trits.ofInt 0 = [Trit.zero] ∧ Trits.string (Trits.ofInt 0) = "0"
        ∧ (Trits.ofInt 0).length = 1)
    ∧ ∀ n : ℤ, n ≠ 0 →
        2 * n.natAbs ≤ 3 ^ (Trits.ofInt n).length
        ∧ (∀ k : ℕ, 2 * n.natAbs ≤ 3 ^ k → (Trits.ofInt n).length ≤ k)
        ∧ (Trits.ofInt n).head? ≠ some Trit.zero := by
  refine ⟨⟨rfl, rfl, rfl⟩, ?_⟩
  intro n hn
  have hlen := ofInt_length n hn
  refine ⟨?_, ?_, ?_⟩
  · rw [hlen]
    exact (int_order_le_iff n _).mp le_rfl
  · intro k hk
    rw [hlen]
    exact (int_order_le_iff n k).mpr hk
  · rw [Trits.ofInt, if_neg hn, buildTrits_head]
    have h1 := int_order_pos n hn
    rw [buildDigit, if_neg (by push_neg; exact ⟨hn, by omega⟩)]
    split <;> simp

theorem ofInt_minimal_exact_order_check :
    2 * (-5 : ℤ).natAbs ≤ 3 ^ (Trits.ofInt (-5)).length
    ∧ (Trits.ofInt (-5)).length ≤ 3
    ∧ (Trits.ofInt (-5)).head? ≠ some Trit.zero :=
  ⟨(ofInt_minimal_exact_order.2 (-5) (by decide)).1,
   (ofInt_minimal_exact_order.2 (-5) (by decide)).2.1 3 (by decide),
   (ofInt_minimal_exact_order.2 (-5) (by decide)).2.2⟩

/-- The magnitude bound of positional decoding: an `n`-trit sequence
decodes to an integer of magnitude at most `(3^n - 1)/2`. -/
theorem integer_bound (l : List Trit) :
    2 * (Trits.integer l).natAbs < 3 ^ l.length := by
  induction l with
  | nil => simp [Trits.integer]
  | cons t rest ih =>
      have hcast : ((3 ^ rest.length : ℕ) : ℤ) = (3:ℤ) ^ rest.length := by
        push_cast; ring
      have hpow : (3:ℕ) ^ (rest.length + 1) = 3 * 3 ^ rest.length := by ring
      rw [Trits.integer]
      cases t <;> simp only [Trit.toInt, List.length_cons] <;> omega

/-- C1: the claim states the integer round-trip for *every* integer, and
the code violates it.  The source sizes the sequence with the
double-precision expression `int(math.ceil(math.log(2*abs(n), 3)))`; at
`n = 308836698141974` (where `2·n = 3^31 + 1`) that expression evaluates
to 31, because the rounded base-3 logarithm of `2·n` is exactly `31.0`,
although 32 trits are required.  The constructor therefore emits a 31-trit
sequence, and — as this theorem shows — no 31-trit sequence decodes to
`n`: the round-trip fails at this input.  The exact required count is 32
(second conjunct), contradicting `int_order`'s own docstring ("the number
of trits required to represent 'integer'") and the spec's exactness
statement, so the claim is right and the code is wrong. -/
theorem trits_roundtrip_float_order_bug :
    3 ^ 31 < 2 * (308836698141974 : ℤ).natAbs
    ∧ 2 * (308836698141974 : ℤ).natAbs ≤ 3 ^ 32
    ∧ ∀ l : List Trit, l.length = 31 →
        Trits.integer l ≠ 308836698141974 := by
  refine ⟨by decide, by decide, ?_⟩
  intro l hl heq
  have hb := integer_bound l
  rw [hl, heq] at hb
  exact absurd hb (by decide)

theorem trits_roundtrip_float_order_bug_witness :
    Trits.integer (List.replicate 31 Trit.pos) ≠ 308836698141974 :=
  trits_roundtrip_float_order_bug.2.2 (List.replicate 31 Trit.pos) (by simp)

/-- C2: the claim states the constructed sequence always has the minimal
sufficient number of trits, and the code violates it.  At
`n = 926510094425921` (where `2·n = 3^32 + 1`) the double-precision
digit count `int(math.ceil(math.log(2*abs(n), 3)))` evaluates to 32, so
the constructor emits a 32-trit sequence; but 32 trits are not
"sufficient to represent n" at all — no 32-trit sequence decodes to `n`
(this theorem) — and the smallest sufficient count is 33 (second
conjunct).  So the emitted length is not the minimum sufficient length,
and the claim is right while the code is wrong. -/
theorem trits_minimal_float_order_bug :
    3 ^ 32 < 2 * (926510094425921 : ℤ).natAbs
    ∧ 2 * (926510094425921 : ℤ).natAbs ≤ 3 ^ 33
    ∧ ∀ l : List Trit, l.length = 32 →
        Trits.integer l ≠ 926510094425921 := by
  refine ⟨by decide, by decide, ?_⟩
  intro l hl heq
  have hb := integer_bound l
  rw [hl, heq] at hb
  exact absurd hb (by decide)

theorem trits_minimal_float_order_bug_witness :
    Trits.integer (List.replicate 32 Trit.pos) ≠ 926510094425921 :=
  trits_minimal_float_order_bug.2.2 (List.replicate 32 Trit.pos) (by simp)

/-! ## Padding -/

theorem integer_replicate_zero_append (k : ℕ) (s : List Trit) :
    Trits.integer (List.replicate k Trit.zero ++ s) = Trits.integer s := by
  induction k with
  | zero => rfl
  | succ k ih => simp [List.replicate, Trits.integer, Trit.toInt, ih]

theorem forceLength_pad (s : List Trit) (L : ℕ) (h : s.length ≤ L) :
    Trits.forceLength s L = List.replicate (L - s.length) Trit.zero ++ s := by
  rw [Trits.forceLength]
  rcases Nat.lt_or_ge s.length L with hlt | hge
  · rw [if_pos hlt]
  · have heq : s.length = L := le_antisymm h hge
    rw [if_neg (by omega), if_neg (by omega), heq]
    simp

/-- C4: forcing a sequence to a length `L ≥ len s` left-pads with zero trits
and preserves the decoded integer. -/
theorem trits_padding_preserves_value (s : List Trit) (L : ℕ) (h : s.length ≤ L) :
    Trits.withLength s (L : ℤ)
        = Except.ok (List.replicate (L - s.length) Trit.zero ++ s)
    ∧ Trits.integer (Trits.forceLength s L) = Trits.integer s := by
  constructor
  · rw [Trits.withLength, if_neg (by omega)]
    rw [show ((L : ℤ)).toNat = L from by omega]
    rw [forceLength_pad s L h]
  · rw [forceLength_pad s L h, integer_replicate_zero_append]

theorem trits_padding_preserves_value_witness :
    Trits.withLength [Trit.pos] (3 : ℤ)
        = Except.ok [Trit.zero, Trit.zero, Trit.pos]
    ∧ Trits.integer (Trits.forceLength [Trit.pos] 3) = Trits.integer [Trit.pos] :=
  ⟨(trits_padding_preserves_value [Trit.pos] 3 (by decide)).1,
   (trits_padding_preserves_value [Trit.pos] 3 (by decide)).2⟩

/-! ## Comparison -/

theorem toInt_inj : ∀ x y : Trit, x.toInt = y.toInt → x = y := by decide

theorem integer_cons_lt (x y : Trit) (xs ys : List Trit)
    (hlen : xs.length = ys.length) (hxy : x.toInt < y.toInt) :
    Trits.integer (x :: xs) < Trits.integer (y :: ys) := by
  have bx := integer_bound xs
  have hby := integer_bound ys
  rw [hlen] at bx
  have hcast : ((3 ^ ys.length : ℕ) : ℤ) = (3:ℤ) ^ ys.length := by push_cast; ring
  rw [Trits.integer, Trits.integer, hlen]
  cases x <;> cases y <;> simp only [Trit.toInt] at hxy ⊢ <;> omega

theorem cmpAux_spec : ∀ xs ys : List Trit, xs.length = ys.length →
    (Trits.cmpAux xs ys < 0 ↔ Trits.integer xs < Trits.integer ys)
    ∧ (Trits.cmpAux xs ys = 0 ↔ Trits.integer xs = Trits.integer ys)
    ∧ (0 < Trits.cmpAux xs ys ↔ Trits.integer ys < Trits.integer xs) := by
  intro xs
  induction xs with
  | nil =>
      intro ys h
      cases ys with
      | nil => refine ⟨?_, ?_, ?_⟩ <;> simp [Trits.cmpAux, Trits.integer]
      | cons y ys => simp at h
  | cons x xs ih =>
      intro ys h
      cases ys with
      | nil => simp at h
      | cons y ys =>
          have hlen : xs.length = ys.length := by simpa using h
          by_cases h1 : x.toInt < y.toInt
          · rw [Trits.cmpAux, if_pos h1]
            have hlt := integer_cons_lt x y xs ys hlen h1
            omega
          · by_cases h2 : y.toInt < x.toInt
            · rw [Trits.cmpAux, if_neg h1, if_pos h2]
              have hgt := integer_cons_lt y x ys xs hlen.symm h2
              omega
            · have hx : x = y := toInt_inj x y (by omega)
              subst hx
              rw [Trits.cmpAux, if_neg h1, if_neg h2]
              obtain ⟨i1, i2, i3⟩ := ih ys hlen
              rw [Trits.integer, Trits.integer, hlen]
              set c := x.toInt * (3:ℤ) ^ ys.length with hc
              omega

theorem match_length_spec (a b : List Trit) :
    (Trits.match_length a b).1.length = (Trits.match_length a b).2.length
    ∧ Trits.integer (Trits.match_length a b).1 = Trits.integer a
    ∧ Trits.integer (Trits.match_length a b).2 = Trits.integer b := by
  rw [Trits.match_length]
  rcases lt_trichotomy a.length b.length with h | h | h
  · rw [if_neg (by omega), if_pos h]
    refine ⟨?_, ?_, rfl⟩
    · rw [forceLength_pad a b.length (le_of_lt h)]
      simp
      omega
    · rw [forceLength_pad a b.length (le_of_lt h),
        integer_replicate_zero_append]
  · rw [if_pos h]
    exact ⟨h, rfl, rfl⟩
  · rw [if_neg (by omega), if_neg (by omega)]
    refine ⟨?_, rfl, ?_⟩
    · rw [forceLength_pad b a.length (le_of_lt h)]
      simp
      omega
    · rw [forceLength_pad b a.length (le_of_lt h),
        integer_replicate_zero_append]

/-- C3: the three-way comparison (length-match by left-padding, then
position-wise comparison from the most significant digit) agrees with
integer comparison of the decoded values. -/
theorem trits_cmp_agrees_integer (a b : List Trit) :
    (Trits.cmp a b < 0 ↔ Trits.integer a < Trits.integer b)
    ∧ (Trits.cmp a b = 0 ↔ Trits.integer a = Trits.integer b)
    ∧ (0 < Trits.cmp a b ↔ Trits.integer b < Trits.integer a) := by
  obtain ⟨hlen, ha, hb⟩ := match_length_spec a b
  have h := cmpAux_spec (Trits.match_length a b).1 (Trits.match_length a b).2 hlen
  rw [ha, hb] at h
  exact h

/-! ## Negation and absolute value -/

theorem integer_negAll (l : List Trit) :
    Trits.integer (Trits.negAll l) = - Trits.integer l := by
  induction l with
  | nil => rfl
  | cons t rest ih =>
      have hlen : (Trits.negAll rest).length = rest.length := by simp [Trits.negAll]
      rw [show Trits.negAll (t :: rest) = t.negate :: Trits.negAll rest from rfl]
      rw [Trits.integer, Trits.integer, hlen, ih]
      cases t <;> simp [Trit.negate, Trit.toInt] <;> ring

theorem firstNonzero_none (l : List Trit)
    (h : Trits.firstNonzero l = Option.none) : Trits.integer l = 0 := by
  induction l with
  | nil => rfl
  | cons t rest ih =>
      rw [Trits.firstNonzero] at h
      by_cases ht : t = Trit.zero
      · rw [if_pos ht] at h
        subst ht
        rw [Trits.integer, ih h]
        simp [Trit.toInt]
      · rw [if_neg ht] at h
        exact absurd h (by simp)

theorem firstNonzero_pos (l : List Trit)
    (h : Trits.firstNonzero l = some Trit.pos) : 0 < Trits.integer l := by
  induction l with
  | nil => simp [Trits.firstNonzero] at h
  | cons t rest ih =>
      rw [Trits.firstNonzero] at h
      by_cases ht : t = Trit.zero
      · rw [if_pos ht] at h
        subst ht
        rw [Trits.integer]
        have := ih h
        simp [Trit.toInt]
        omega
      · rw [if_neg ht] at h
        have ht' : t = Trit.pos := by simpa using h
        subst ht'
        rw [Trits.integer]
        have hb := integer_bound rest
        have hcast : ((3 ^ rest.length : ℕ) : ℤ) = (3:ℤ) ^ rest.length := by
          push_cast; ring
        simp only [Trit.toInt]
        omega

theorem firstNonzero_neg (l : List Trit)
    (h : Trits.firstNonzero l = some Trit.neg) : Trits.integer l < 0 := by
  induction l with
  | nil => simp [Trits.firstNonzero] at h
  | cons t rest ih =>
      rw [Trits.firstNonzero] at h
      by_cases ht : t = Trit.zero
      · rw [if_pos ht] at h
        subst ht
        rw [Trits.integer]
        have := ih h
        simp [Trit.toInt]
        omega
      · rw [if_neg ht] at h
        have ht' : t = Trit.neg := by simpa using h
        subst ht'
        rw [Trits.integer]
        have hb := integer_bound rest
        have hcast : ((3 ^ rest.length : ℕ) : ℤ) = (3:ℤ) ^ rest.length := by
          push_cast; ring
        simp only [Trit.toInt]
        omega

theorem firstNonzero_ne_some_zero (l : List Trit) :
    Trits.firstNonzero l ≠ some Trit.zero := by
  induction l with
  | nil => simp [Trits.firstNonzero]
  | cons t rest ih =>
      rw [Trits.firstNonzero]
      by_cases ht : t = Trit.zero
      · rw [if_pos ht]; exact ih
      · rw [if_neg ht]; simpa using ht

theorem absAux_eq (orig : List Trit) : ∀ l : List Trit,
    Trits.absAux orig l =
      if Trits.firstNonzero l = some Trit.neg then Trits.negAll orig else orig := by
  intro l
  induction l with
  | nil => simp [Trits.absAux, Trits.firstNonzero]
  | cons t rest ih =>
      rw [Trits.absAux, Trits.firstNonzero]
      cases t
      · simp
      · simpa using ih
      · simp

/-- C8: `abs` is decided by the sign of the whole sequence: if the most
significant nonzero digit is negative the result is the digit-wise negation
(numeric negation); otherwise the sequence is returned unchanged; in all
cases the decoded integer of the result is the absolute value. -/
theorem trits_abs_spec (l : List Trit) :
    (Trits.firstNonzero l = some Trit.neg →
        Trits.abs l = Trits.negAll l
        ∧ Trits.integer (Trits.abs l) = - Trits.integer l)
    ∧ (Trits.firstNonzero l ≠ some Trit.neg → Trits.abs l = l)
    ∧ Trits.integer (Trits.abs l) = |Trits.integer l| := by
  have habs : Trits.abs l =
      if Trits.firstNonzero l = some Trit.neg then Trits.negAll l else l :=
    absAux_eq l l
  refine ⟨?_, ?_, ?_⟩
  · intro h
    rw [habs, if_pos h]
    exact ⟨rfl, integer_negAll l⟩
  · intro h
    rw [habs, if_neg h]
  · rcases hfz : Trits.firstNonzero l with _ | t
    · rw [habs, if_neg (by simp [hfz])]
      rw [firstNonzero_none l hfz]
      simp
    · cases t
      · rw [habs, if_pos hfz, integer_negAll]
        rw [abs_of_neg (firstNonzero_neg l hfz)]
      · exact absurd hfz (firstNonzero_ne_some_zero l)
      · rw [habs, if_neg (by simp [hfz])]
        rw [abs_of_pos (firstNonzero_pos l hfz)]

theorem trits_abs_spec_witness :
    Trits.abs [Trit.neg, Trit.pos, Trit.pos]
        = Trits.negAll [Trit.neg, Trit.pos, Trit.pos]
    ∧ Trits.integer (Trits.abs [Trit.neg, Trit.pos, Trit.pos])
        = - Trits.integer [Trit.neg, Trit.pos, Trit.pos]
    ∧ Trits.abs [Trit.zero] = [Trit.zero]
    ∧ Trits.integer (Trits.abs [Trit.pos, Trit.neg])
        = |Trits.integer [Trit.pos, Trit.neg]| :=
  ⟨((trits_abs_spec [Trit.neg, Trit.pos, Trit.pos]).1 (by decide)).1,
   ((trits_abs_spec [Trit.neg, Trit.pos, Trit.pos]).1 (by decide)).2,
   (trits_abs_spec [Trit.zero]).2.1 (by decide),
   (trits_abs_spec [Trit.pos, Trit.neg]).2.2⟩

/-! ## Single-trit addition -/

/-- C5: `Trit.add` follows the zero/equal/opposite rules and is exact:
result plus three times carry equals the integer sum of the operands. -/
theorem trit_add_spec : ∀ a b : Trit,
    (a = Trit.zero → Trit.add a b = (b, Trit.zero))
    ∧ (b = Trit.zero → Trit.add a b = (a, Trit.zero))
    ∧ (a = b ∧ a ≠ Trit.zero → Trit.add a b = (a.negate, a))
    ∧ (a ≠ b ∧ a ≠ Trit.zero ∧ b ≠ Trit.zero →
        Trit.add a b = (Trit.zero, Trit.zero))
    ∧ (Trit.add a b).1.toInt + 3 * (Trit.add a b).2.toInt
        = a.toInt + b.toInt := by
  decide

theorem trit_add_spec_witness :
    Trit.add Trit.zero Trit.pos = (Trit.pos, Trit.zero)
    ∧ Trit.add Trit.pos Trit.pos = (Trit.pos.negate, Trit.pos)
    ∧ Trit.add Trit.neg Trit.pos = (Trit.zero, Trit.zero) :=
  ⟨(trit_add_spec Trit.zero Trit.pos).1 rfl,
   (trit_add_spec Trit.pos Trit.pos).2.2.1 ⟨rfl, by decide⟩,
   (trit_add_spec Trit.neg Trit.pos).2.2.2.1 ⟨by decide, by decide, by decide⟩⟩

/-! ## Parsing -/

theorem make_of_lookup_some (s : String) (t : Trit)
    (h : tableLookup (strip s) = some t) : Trit.make s = Except.ok t := by
  rw [Trit.make, h]

theorem make_of_lookup_none (s : String)
    (h : tableLookup (strip s) = Option.none) :
    Trit.make s = Except.error (BternError.invalidTritSymbol s) := by
  rw [Trit.make, h]

theorem make_of_mem (s : String) (t : Trit) (hmem : (strip s, t) ∈ INPUTS) :
    Trit.make s = Except.ok t := by
  simp only [INPUTS, List.mem_cons, List.not_mem_nil, or_false,
    Prod.mk.injEq] at hmem
  rcases hmem with ⟨h1, h2⟩ | ⟨h1, h2⟩ | ⟨h1, h2⟩ | ⟨h1, h2⟩ | ⟨h1, h2⟩
    | ⟨h1, h2⟩ | ⟨h1, h2⟩ | ⟨h1, h2⟩ | ⟨h1, h2⟩ | ⟨h1, h2⟩ | ⟨h1, h2⟩
    | ⟨h1, h2⟩ | ⟨h1, h2⟩ <;>
    subst h2 <;> exact make_of_lookup_some s _ (by rw [h1]; rfl)

/-- C6: parsing strips surrounding whitespace, maps every accepted spelling
of the `INPUTS` table to its trit, and fails with `InvalidTritSymbol`
carrying the offending input exactly when the stripped text is not in the
table. -/
theorem trit_make_table (s : String) :
    (∀ t : Trit, (strip s, t) ∈ INPUTS → Trit.make s = Except.ok t)
    ∧ (Trit.make s = Except.error (BternError.invalidTritSymbol s)
        ↔ strip s ∉ INPUTS.map Prod.fst) := by
  constructor
  · exact make_of_mem s
  · constructor
    · intro herr hkey
      rcases List.mem_map.mp hkey with ⟨p, hp, hps⟩
      have hok : Trit.make s = Except.ok p.2 :=
        make_of_mem s p.2 (by rw [← hps]; exact hp)
      rw [hok] at herr
      exact absurd herr (by simp)
    · intro hnot
      apply make_of_lookup_none
      have hfind : INPUTS.find? (fun p => p.1 == strip s) = Option.none := by
        rw [List.find?_eq_none]
        intro p hp hps
        have hps' : p.1 = strip s := by simpa using hps
        exact hnot (List.mem_map.mpr ⟨p, hp, hps'⟩)
      rw [tableLookup, hfind]
      rfl

theorem trit_make_table_witness :
    Trit.make " N " = Except.ok Trit.zero
    ∧ Trit.make "abc" = Except.error (BternError.invalidTritSymbol "abc") :=
  ⟨(trit_make_table " N ").1 Trit.zero (by decide),
   (trit_make_table "abc").2.mpr (by decide)⟩

/-! ## Length argument handling -/

/-- C7: a negative requested length fails with `InvalidLength` at
construction time; no trit list is produced. -/
theorem trits_negative_length_error (ts : List Trit) (L : ℤ) (h : L < 0) :
    Trits.withLength ts L = Except.error (BternError.invalidLength L) := by
  rw [Trits.withLength, if_pos h]

theorem trits_negative_length_error_witness :
    Trits.withLength [Trit.pos] (-1)
      = Except.error (BternError.invalidLength (-1)) :=
  trits_negative_length_error [Trit.pos] (-1) (by decide)

/-- C9: constructing from an empty iterable or from `None` with no length
argument yields the empty sequence (length 0, empty text, integer 0),
unlike constructing from the integer 0, which yields the one-digit "0". -/
theorem trits_empty_init :
    Trits.init Trits.Arg.none = []
    ∧ Trits.init (Trits.Arg.seq []) = []
    ∧ (Trits.init Trits.Arg.none).length = 0
    ∧ Trits.string (Trits.init Trits.Arg.none) = ""
    ∧ Trits.integer (Trits.init Trits.Arg.none) = 0
    ∧ (Trits.init (Trits.Arg.seq [])).length = 0
    ∧ Trits.string (Trits.init (Trits.Arg.seq [])) = ""
    ∧ Trits.integer (Trits.init (Trits.Arg.seq [])) = 0
    ∧ (Trits.init (Trits.Arg.int 0)).length = 1
    ∧ Trits.string (Trits.init (Trits.Arg.int 0)) = "0" :=
  ⟨rfl, rfl, rfl, rfl, rfl, rfl, rfl, rfl, rfl, rfl⟩

/-- C10 (evaluation at the failing input): forcing the one-trit sequence
`+` to length 0 keeps the whole sequence — the Python slice `trits[-0:]`
is the entire list — instead of keeping exactly 0 trits as documented. -/
theorem trits_truncate_zero_length_behavior :
    Trits.withLength [Trit.pos] 0 = Except.ok [Trit.pos]
    ∧ (Trits.forceLength [Trit.pos] 0).length = 1 :=
  ⟨rfl, rfl⟩
